/-
Verification of the frequency-based range-query program (src/solution.js).

The program answers "k-th most frequent element" queries over subranges of an
integer array.  It has two implementations:

* `frequencyBasedQueries` builds a segment tree (`buildSegmentTree`) whose
  nodes precompute a frequency table (`frequencyMap`, a JS object mapping
  element value to occurrence count) and a ranking (`frequencySorted`,
  elements sorted by descending count, ascending value on ties), and answers
  each query with `queryRange`;
* `optimizedFrequencyBasedQueries` recounts the queried subrange directly.

JS objects keyed by integers are embedded as association lists
`List (Int × Nat)` with distinct keys; `insertAdd` models
`m[element] = (m[element] || 0) + frequency`.  JS `Array.prototype.sort` with
the comparator `(a, b) => freq[b] - freq[a] || a - b` is a strict total order
on the (distinct) keys, so its output is the unique sorted arrangement of the
key set, order-independent; it is embedded as `List.insertionSort` over the
relation `freqLe`.  Thrown JS errors are embedded as `Except QueryError`.
-/
import Mathlib

set_option maxRecDepth 4000

/-- Look a key up in an association list modelling a JS object
(element value → occurrence count); 0 when absent, as in the
source's read pattern (`m[element] || 0`). -/
def lookupFreq : List (Int × Nat) → Int → Nat
  | [], _ => 0
  | (y, c) :: rest, x => if x = y then c else lookupFreq rest x

/-- The key list of the JS object: `Object.keys(m).map(Number)`. -/
def keysOf (m : List (Int × Nat)) : List Int :=
  m.map Prod.fst

/-- `m[x] = (m[x] || 0) + c`: update the entry for `x`, or append it. -/
def insertAdd : List (Int × Nat) → Int → Nat → List (Int × Nat)
  | [], x, c => [(x, c)]
  | (y, d) :: rest, x, c =>
    if x = y then (y, d + c) :: rest else (y, d) :: insertAdd rest x c

/-- The merge loop of `buildSegmentTree`:
`for ([element, frequency] of Object.entries(src)) acc[element] = (acc[element] || 0) + frequency`. -/
def mergeEntries (acc src : List (Int × Nat)) : List (Int × Nat) :=
  src.foldl (fun m e => insertAdd m e.1 e.2) acc

/-- The filtered merge loop in the straddling-overlap branch of `queryRange`:
like `mergeEntries` but an entry is added only when the source's value filter
`element >= left && element <= right` passes — the comparison the source makes
is between the element VALUE and the query's index bounds. -/
def filterMergeEntries (acc src : List (Int × Nat)) (left right : Nat) :
    List (Int × Nat) :=
  src.foldl
    (fun m e => if (left : Int) ≤ e.1 ∧ e.1 ≤ (right : Int) then insertAdd m e.1 e.2 else m)
    acc

/-- The sort order used throughout the source:
`(a, b) => m[b] - m[a] !== 0 ? m[b] - m[a] : a - b`, i.e. `a` comes no later
than `b` when `a`'s count is larger, or the counts tie and `a ≤ b`. -/
def freqLe (m : List (Int × Nat)) (a b : Int) : Prop :=
  lookupFreq m b < lookupFreq m a ∨ (lookupFreq m a = lookupFreq m b ∧ a ≤ b)

instance freqLeDecidable (m : List (Int × Nat)) : DecidableRel (freqLe m) := by
  unfold freqLe
  exact fun a b => inferInstanceAs (Decidable (_ ∨ _))

instance freqLeTotal (m : List (Int × Nat)) : IsTotal Int (freqLe m) := by
  constructor
  intro a b
  unfold freqLe
  omega

instance freqLeTrans (m : List (Int × Nat)) : IsTrans Int (freqLe m) := by
  constructor
  intro a b c hab hbc
  unfold freqLe at *
  omega

/-- A segment-tree node (`createNode` + the fields filled by
`buildSegmentTree`).  A leaf has `left = right = null` in the source; an
inner node has both children.  `endIdx` embeds the source field `end`
(a Lean keyword); for a leaf, `start == end`, so only `start` is stored. -/
inductive Node where
  | leaf (start : Nat) (frequencyMap : List (Int × Nat)) (frequencySorted : List Int)
  | node (start endIdx : Nat) (frequencyMap : List (Int × Nat)) (frequencySorted : List Int)
      (left right : Node)

def Node.start : Node → Nat
  | .leaf s _ _ => s
  | .node s _ _ _ _ _ => s

def Node.endIdx : Node → Nat
  | .leaf s _ _ => s
  | .node _ e _ _ _ _ => e

def Node.frequencyMap : Node → List (Int × Nat)
  | .leaf _ fm _ => fm
  | .node _ _ fm _ _ _ => fm

def Node.frequencySorted : Node → List Int
  | .leaf _ _ fs => fs
  | .node _ _ _ fs _ _ => fs

theorem Node.start_leaf (s : Nat) (fm : List (Int × Nat)) (fs : List Int) :
    (Node.leaf s fm fs).start = s := rfl

theorem Node.endIdx_leaf (s : Nat) (fm : List (Int × Nat)) (fs : List Int) :
    (Node.leaf s fm fs).endIdx = s := rfl

theorem Node.frequencyMap_leaf (s : Nat) (fm : List (Int × Nat)) (fs : List Int) :
    (Node.leaf s fm fs).frequencyMap = fm := rfl

theorem Node.frequencySorted_leaf (s : Nat) (fm : List (Int × Nat)) (fs : List Int) :
    (Node.leaf s fm fs).frequencySorted = fs := rfl

theorem Node.start_node (s e : Nat) (fm : List (Int × Nat)) (fs : List Int) (l r : Node) :
    (Node.node s e fm fs l r).start = s := rfl

theorem Node.endIdx_node (s e : Nat) (fm : List (Int × Nat)) (fs : List Int) (l r : Node) :
    (Node.node s e fm fs l r).endIdx = e := rfl

theorem Node.frequencyMap_node (s e : Nat) (fm : List (Int × Nat)) (fs : List Int) (l r : Node) :
    (Node.node s e fm fs l r).frequencyMap = fm := rfl

theorem Node.frequencySorted_node (s e : Nat) (fm : List (Int × Nat)) (fs : List Int) (l r : Node) :
    (Node.node s e fm fs l r).frequencySorted = fs := rfl

/-- `buildSegmentTree(arr, start, end)`, with an explicit structural fuel so
that the recursion is structural and kernel-reducible.  `fuel = end - start`
suffices: each child range is strictly smaller, so the fuel-exhausted arm
(which mirrors the leaf arm) is unreachable whenever `start ≤ end` and the
initial fuel is `end - start`, as `buildSegmentTree` passes it. -/
def buildGo (arr : List Int) : Nat → Nat → Nat → Node
  | fuel, s, e =>
    if s = e then
      Node.leaf s [(arr.getD s 0, 1)] [arr.getD s 0]
    else
      match fuel with
      | 0 => Node.leaf s [(arr.getD s 0, 1)] [arr.getD s 0]
      | fuel' + 1 =>
        let mid := (s + e) / 2
        let l := buildGo arr fuel' s mid
        let r := buildGo arr fuel' (mid + 1) e
        let merged := mergeEntries (mergeEntries [] l.frequencyMap) r.frequencyMap
        Node.node s e merged (List.insertionSort (freqLe merged) (keysOf merged)) l r

/-- `buildSegmentTree(arr, start, end)` from src/solution.js lines 55-93. -/
def buildSegmentTree (arr : List Int) (s e : Nat) : Node :=
  buildGo arr (e - s) s e

/-- `queryRange(node, left, right, k)` from src/solution.js lines 95-151.
Returns the `{ element, frequency }` record as a pair.  For a leaf the
source's first two checks (full containment; no overlap) are exhaustive,
since `start = end`; the straddling-overlap branch (which dereferences
`node.left` / `node.right`) is reached only at inner nodes. -/
def queryRange : Node → Nat → Nat → Nat → Int × Nat
  | .leaf s fm fs, left, right, k =>
    if s ≥ left ∧ s ≤ right then
      if k > fs.length then (-1, 0)
      else (fs.getD (k - 1) 0, lookupFreq fm (fs.getD (k - 1) 0))
    else (-1, 0)
  | .node s e fm fs l r, left, right, k =>
    if s ≥ left ∧ e ≤ right then
      if k > fs.length then (-1, 0)
      else (fs.getD (k - 1) 0, lookupFreq fm (fs.getD (k - 1) 0))
    else if e < left ∨ s > right then (-1, 0)
    else
      let mid := (s + e) / 2
      let m1 : List (Int × Nat) :=
        if left ≤ mid then
          let leftResult := queryRange l left (min right mid) 1
          if leftResult.1 ≠ -1 then
            filterMergeEntries [] l.frequencyMap left right
          else []
        else []
      let m2 : List (Int × Nat) :=
        if right > mid then
          let rightResult := queryRange r (max left (mid + 1)) right 1
          if rightResult.1 ≠ -1 then
            filterMergeEntries m1 r.frequencyMap left right
          else m1
        else m1
      let frequencySorted := List.insertionSort (freqLe m2) (keysOf m2)
      if k > frequencySorted.length then (-1, 0)
      else (frequencySorted.getD (k - 1) 0, lookupFreq m2 (frequencySorted.getD (k - 1) 0))

/-- The errors thrown by the source, one constructor per `throw` site. -/
inductive QueryError where
  | emptyInput
  | invalidRange (left right : Int)
  | invalidRank (k : Int)
  | rankExceedsDistinct (k : Int) (distinct : Nat) (left right : Int)
deriving DecidableEq

/-- `arr.slice(left, right + 1)` for in-bounds indices. -/
def sliceRange (arr : List Int) (s e : Nat) : List Int :=
  (arr.drop s).take (e + 1 - s)

/-- The per-query loop body of `frequencyBasedQueries` (src/solution.js lines
164-185): validate the query, count distinct elements of the slice
(`new Set(subarray).size`), then call `queryRange` and keep `.element`.
A thrown error aborts the whole batch, so the fold is in `Except`. -/
def processQueries (arr : List Int) (root : Node) :
    List (Int × Int × Int) → Except QueryError (List Int)
  | [] => .ok []
  | (left, right, k) :: rest =>
    if left < 0 ∨ right ≥ (arr.length : Int) ∨ left > right then
      .error (.invalidRange left right)
    else if k ≤ 0 then
      .error (.invalidRank k)
    else
      let subarray := sliceRange arr left.toNat right.toNat
      let distinctElements := subarray.dedup.length
      if k > (distinctElements : Int) then
        .error (.rankExceedsDistinct k distinctElements left right)
      else
        let result := queryRange root left.toNat right.toNat k.toNat
        match processQueries arr root rest with
        | .error err => .error err
        | .ok results => .ok (result.1 :: results)

/-- `frequencyBasedQueries(arr, queries)` from src/solution.js lines 153-188:
the segment-tree implementation. -/
def frequencyBasedQueries (arr : List Int) (queries : List (Int × Int × Int)) :
    Except QueryError (List Int) :=
  if arr.length = 0 then .error .emptyInput
  else
    let root := buildSegmentTree arr 0 (arr.length - 1)
    processQueries arr root queries

/-- The per-query loop body of `optimizedFrequencyBasedQueries`
(src/solution.js lines 197-227): validate, tally the slice directly
(`for (i = left..right) m[arr[i]]++`), sort, and take `sorted[k-1]`. -/
def optimizedProcess (arr : List Int) :
    List (Int × Int × Int) → Except QueryError (List Int)
  | [] => .ok []
  | (left, right, k) :: rest =>
    if left < 0 ∨ right ≥ (arr.length : Int) ∨ left > right then
      .error (.invalidRange left right)
    else if k ≤ 0 then
      .error (.invalidRank k)
    else
      let frequencyMap :=
        (sliceRange arr left.toNat right.toNat).foldl (fun m x => insertAdd m x 1) []
      let distinctElements := (keysOf frequencyMap).length
      if k > (distinctElements : Int) then
        .error (.rankExceedsDistinct k distinctElements left right)
      else
        let sortedElements := List.insertionSort (freqLe frequencyMap) (keysOf frequencyMap)
        match optimizedProcess arr rest with
        | .error err => .error err
        | .ok results => .ok (sortedElements.getD (k.toNat - 1) 0 :: results)

/-- `optimizedFrequencyBasedQueries(arr, queries)` from src/solution.js lines
190-230: the direct-counting reference implementation. -/
def optimizedFrequencyBasedQueries (arr : List Int) (queries : List (Int × Int × Int)) :
    Except QueryError (List Int) :=
  if arr.length = 0 then .error .emptyInput
  else optimizedProcess arr queries

/-! ### Association-list lemmas -/

theorem lookupFreq_insertAdd (m : List (Int × Nat)) (x : Int) (c : Nat) (z : Int) :
    lookupFreq (insertAdd m x c) z =
      if z = x then lookupFreq m z + c else lookupFreq m z := by
  induction m with
  | nil =>
    by_cases h : z = x <;> simp [insertAdd, lookupFreq, h]
  | cons hd tl ih =>
    obtain ⟨y, d⟩ := hd
    by_cases hxy : x = y
    · subst hxy
      by_cases hz : z = x
      · subst hz
        simp [insertAdd, lookupFreq]
      · simp [insertAdd, lookupFreq, hz]
    · by_cases hz : z = y
      · have hzx : ¬ z = x := fun h => hxy (h.symm.trans hz)
        have hyx : ¬ y = x := fun h => hxy h.symm
        simp [insertAdd, lookupFreq, hxy, hz, hzx, hyx]
      · simp [insertAdd, lookupFreq, hxy, hz, ih]

theorem mem_keysOf_insertAdd (m : List (Int × Nat)) (x : Int) (c : Nat) (z : Int) :
    z ∈ keysOf (insertAdd m x c) ↔ z = x ∨ z ∈ keysOf m := by
  induction m with
  | nil => simp [insertAdd, keysOf]
  | cons hd tl ih =>
    obtain ⟨y, d⟩ := hd
    by_cases hxy : x = y
    · subst hxy
      simp only [insertAdd, if_pos rfl, eq_self_iff_true, if_true, keysOf,
        List.map_cons, List.mem_cons]
      tauto
    · simp only [insertAdd, if_neg hxy, keysOf, List.map_cons, List.mem_cons] at *
      rw [ih]
      tauto

theorem nodup_keysOf_insertAdd (m : List (Int × Nat)) (x : Int) (c : Nat)
    (h : (keysOf m).Nodup) : (keysOf (insertAdd m x c)).Nodup := by
  induction m with
  | nil => simp [insertAdd, keysOf]
  | cons hd tl ih =>
    obtain ⟨y, d⟩ := hd
    simp only [keysOf, List.map_cons, List.nodup_cons] at h
    by_cases hxy : x = y
    · subst hxy
      simpa [insertAdd, keysOf] using h
    · simp only [insertAdd, if_neg hxy, keysOf, List.map_cons, List.nodup_cons]
      refine ⟨fun hy => ?_, ih h.2⟩
      rcases (mem_keysOf_insertAdd tl x c y).1 hy with h1 | h1
      · exact hxy h1.symm
      · exact h.1 h1

theorem lookupFreq_eq_zero_of_not_mem (m : List (Int × Nat)) (z : Int)
    (h : z ∉ keysOf m) : lookupFreq m z = 0 := by
  induction m with
  | nil => rfl
  | cons hd tl ih =>
    obtain ⟨y, d⟩ := hd
    simp only [keysOf, List.map_cons, List.mem_cons] at h
    push_neg at h
    simp [lookupFreq, h.1, ih (by simpa [keysOf] using h.2)]

theorem snd_sum_insertAdd (m : List (Int × Nat)) (x : Int) (c : Nat) :
    ((insertAdd m x c).map Prod.snd).sum = (m.map Prod.snd).sum + c := by
  induction m with
  | nil => simp [insertAdd]
  | cons hd tl ih =>
    obtain ⟨y, d⟩ := hd
    by_cases hxy : x = y
    · subst hxy
      simp [insertAdd]
      omega
    · simp [insertAdd, hxy, ih]
      omega

/-! ### Merge-loop lemmas -/

theorem lookupFreq_mergeEntries (src : List (Int × Nat)) :
    ∀ acc : List (Int × Nat), (keysOf src).Nodup → ∀ z : Int,
      lookupFreq (mergeEntries acc src) z = lookupFreq acc z + lookupFreq src z := by
  induction src with
  | nil => intro acc _ z; simp [mergeEntries, lookupFreq]
  | cons hd tl ih =>
    intro acc hnd z
    obtain ⟨y, c⟩ := hd
    simp only [keysOf, List.map_cons, List.nodup_cons] at hnd
    have step : mergeEntries acc ((y, c) :: tl) = mergeEntries (insertAdd acc y c) tl := rfl
    rw [step, ih (insertAdd acc y c) hnd.2 z, lookupFreq_insertAdd]
    by_cases hz : z = y
    · subst hz
      have : lookupFreq tl z = 0 :=
        lookupFreq_eq_zero_of_not_mem tl z (by simpa [keysOf] using hnd.1)
      simp [lookupFreq, this]
    · simp [lookupFreq, hz]

theorem mem_keysOf_mergeEntries (src : List (Int × Nat)) :
    ∀ acc : List (Int × Nat), ∀ z : Int,
      z ∈ keysOf (mergeEntries acc src) ↔ z ∈ keysOf acc ∨ z ∈ keysOf src := by
  induction src with
  | nil => intro acc z; simp [mergeEntries, keysOf]
  | cons hd tl ih =>
    intro acc z
    obtain ⟨y, c⟩ := hd
    have step : mergeEntries acc ((y, c) :: tl) = mergeEntries (insertAdd acc y c) tl := rfl
    rw [step, ih (insertAdd acc y c) z, mem_keysOf_insertAdd]
    simp only [keysOf, List.map_cons, List.mem_cons]
    tauto

theorem nodup_keysOf_mergeEntries (src : List (Int × Nat)) :
    ∀ acc : List (Int × Nat), (keysOf acc).Nodup →
      (keysOf (mergeEntries acc src)).Nodup := by
  induction src with
  | nil => intro acc h; simpa [mergeEntries]
  | cons hd tl ih =>
    intro acc h
    obtain ⟨y, c⟩ := hd
    have step : mergeEntries acc ((y, c) :: tl) = mergeEntries (insertAdd acc y c) tl := rfl
    rw [step]
    exact ih (insertAdd acc y c) (nodup_keysOf_insertAdd acc y c h)

theorem snd_sum_mergeEntries (src : List (Int × Nat)) :
    ∀ acc : List (Int × Nat),
      ((mergeEntries acc src).map Prod.snd).sum =
        (acc.map Prod.snd).sum + (src.map Prod.snd).sum := by
  induction src with
  | nil => intro acc; simp [mergeEntries]
  | cons hd tl ih =>
    intro acc
    obtain ⟨y, c⟩ := hd
    have step : mergeEntries acc ((y, c) :: tl) = mergeEntries (insertAdd acc y c) tl := rfl
    rw [step, ih (insertAdd acc y c), snd_sum_insertAdd]
    simp
    omega

/-! ### Slice lemmas -/

theorem sliceRange_self (arr : List Int) (s : Nat) (h : s < arr.length) :
    sliceRange arr s s = [arr.getD s 0] := by
  unfold sliceRange
  have hs : s + 1 - s = 1 := by omega
  rw [hs, List.drop_eq_getElem_cons h, List.getD_eq_getElem arr 0 h]
  rfl

theorem sliceRange_split (arr : List Int) (s mid e : Nat) (h1 : s ≤ mid) (h2 : mid < e) :
    sliceRange arr s e = sliceRange arr s mid ++ sliceRange arr (mid + 1) e := by
  unfold sliceRange
  have he : e + 1 - s = (mid + 1 - s) + (e - mid) := by omega
  rw [he, List.take_add, List.drop_drop]
  have hd : s + (mid + 1 - s) = mid + 1 := by omega
  have hm : e - mid = e + 1 - (mid + 1) := by omega
  rw [hd, hm]

theorem length_sliceRange (arr : List Int) (s e : Nat) (h1 : s ≤ e) (h2 : e < arr.length) :
    (sliceRange arr s e).length = e + 1 - s := by
  unfold sliceRange
  rw [List.length_take, List.length_drop]
  omega

theorem sliceRange_full (arr : List Int) (h : arr ≠ []) :
    sliceRange arr 0 (arr.length - 1) = arr := by
  unfold sliceRange
  have : arr.length - 1 + 1 - 0 = arr.length := by
    have := List.length_pos.2 h
    omega
  rw [this]
  simp

/-! ### The per-node invariant and the build theorem -/

/-- The invariant every tree node is claimed to satisfy: its frequency table
is exactly the occurrence-count table of the array slice it covers, the
counts sum to the slice length, and its ranking is the key set sorted by
descending count with ascending value on ties. -/
def NodeInv (arr : List Int) (t : Node) : Prop :=
  (∀ z : Int, lookupFreq t.frequencyMap z = (sliceRange arr t.start t.endIdx).count z) ∧
  (∀ z : Int, z ∈ keysOf t.frequencyMap ↔ z ∈ sliceRange arr t.start t.endIdx) ∧
  (keysOf t.frequencyMap).Nodup ∧
  (t.frequencyMap.map Prod.snd).sum = t.endIdx + 1 - t.start ∧
  t.frequencySorted.Perm (keysOf t.frequencyMap) ∧
  t.frequencySorted.Sorted (freqLe t.frequencyMap)

/-- A property holds at every node of a tree. -/
def AllNodes (P : Node → Prop) : Node → Prop
  | .leaf s fm fs => P (.leaf s fm fs)
  | .node s e fm fs l r => P (.node s e fm fs l r) ∧ AllNodes P l ∧ AllNodes P r

theorem AllNodes.self {P : Node → Prop} {t : Node} (h : AllNodes P t) : P t := by
  cases t with
  | leaf s fm fs => exact h
  | node s e fm fs l r => exact h.1

theorem nodeInv_leaf (arr : List Int) (s : Nat) (h : s < arr.length) :
    NodeInv arr (Node.leaf s [(arr.getD s 0, 1)] [arr.getD s 0]) := by
  unfold NodeInv
  simp only [Node.frequencyMap_leaf, Node.frequencySorted_leaf, Node.start_leaf,
    Node.endIdx_leaf]
  rw [sliceRange_self arr s h]
  refine ⟨?_, ?_, ?_, ?_, ?_, ?_⟩
  · intro z
    rw [List.count_singleton']
    simp only [lookupFreq]
    by_cases hz : z = arr.getD s 0
    · rw [if_pos hz, if_pos hz.symm]
    · rw [if_neg hz, if_neg (fun h => hz h.symm)]
  · intro z
    simp [keysOf]
  · simp [keysOf]
  · simp
  · simp [keysOf]
  · exact List.sorted_singleton _

theorem nodeInv_merge (arr : List Int) (s mid e : Nat) (l r : Node)
    (hmid1 : s ≤ mid) (hmid2 : mid < e)
    (hls : l.start = s) (hle : l.endIdx = mid)
    (hrs : r.start = mid + 1) (hre : r.endIdx = e)
    (hl : NodeInv arr l) (hr : NodeInv arr r) :
    NodeInv arr
      (Node.node s e (mergeEntries (mergeEntries [] l.frequencyMap) r.frequencyMap)
        (List.insertionSort
          (freqLe (mergeEntries (mergeEntries [] l.frequencyMap) r.frequencyMap))
          (keysOf (mergeEntries (mergeEntries [] l.frequencyMap) r.frequencyMap)))
        l r) := by
  unfold NodeInv at hl hr ⊢
  rw [hls, hle] at hl
  rw [hrs, hre] at hr
  obtain ⟨lLook, lMem, lNodup, lSum, -, -⟩ := hl
  obtain ⟨rLook, rMem, rNodup, rSum, -, -⟩ := hr
  simp only [Node.frequencyMap_node, Node.frequencySorted_node, Node.start_node,
    Node.endIdx_node]
  have hsplit := sliceRange_split arr s mid e hmid1 hmid2
  have mergedLook : ∀ z, lookupFreq (mergeEntries (mergeEntries [] l.frequencyMap) r.frequencyMap) z
      = lookupFreq l.frequencyMap z + lookupFreq r.frequencyMap z := by
    intro z
    rw [lookupFreq_mergeEntries r.frequencyMap _ rNodup z,
      lookupFreq_mergeEntries l.frequencyMap [] lNodup z]
    simp [lookupFreq]
  have mergedMem : ∀ z, z ∈ keysOf (mergeEntries (mergeEntries [] l.frequencyMap) r.frequencyMap)
      ↔ z ∈ keysOf l.frequencyMap ∨ z ∈ keysOf r.frequencyMap := by
    intro z
    rw [mem_keysOf_mergeEntries r.frequencyMap _ z,
      mem_keysOf_mergeEntries l.frequencyMap [] z]
    simp [keysOf]
  refine ⟨?_, ?_, ?_, ?_, ?_, ?_⟩
  · intro z
    rw [mergedLook z, hsplit, List.count_append, lLook z, rLook z]
  · intro z
    rw [mergedMem z, hsplit, List.mem_append, lMem z, rMem z]
  · exact nodup_keysOf_mergeEntries r.frequencyMap _
      (nodup_keysOf_mergeEntries l.frequencyMap [] (by simp [keysOf]))
  · rw [snd_sum_mergeEntries r.frequencyMap _, snd_sum_mergeEntries l.frequencyMap []]
    simp only [List.map_nil, List.sum_nil, Nat.zero_add]
    omega
  · exact List.perm_insertionSort _ _
  · exact List.sorted_insertionSort _ _

theorem buildGo_spec (arr : List Int) :
    ∀ (fuel s e : Nat), s ≤ e → e < arr.length → e - s ≤ fuel →
      (buildGo arr fuel s e).start = s ∧ (buildGo arr fuel s e).endIdx = e ∧
      AllNodes (NodeInv arr) (buildGo arr fuel s e) := by
  intro fuel
  induction fuel with
  | zero =>
    intro s e hse he hf
    have heq : s = e := by omega
    subst heq
    simp only [buildGo, if_pos rfl]
    exact ⟨rfl, rfl, nodeInv_leaf arr s he⟩
  | succ f ih =>
    intro s e hse he hf
    by_cases heq : s = e
    · subst heq
      simp only [buildGo, if_pos rfl]
      exact ⟨rfl, rfl, nodeInv_leaf arr s he⟩
    · have hlt : s < e := by omega
      have hmid1 : s ≤ (s + e) / 2 := by omega
      have hmid2 : (s + e) / 2 < e := by omega
      obtain ⟨hls, hle, hlinv⟩ := ih s ((s + e) / 2) hmid1 (by omega) (by omega)
      obtain ⟨hrs, hre, hrinv⟩ := ih ((s + e) / 2 + 1) e (by omega) he (by omega)
      simp only [buildGo, if_neg heq]
      refine ⟨rfl, rfl, ?_, hlinv, hrinv⟩
      exact nodeInv_merge arr s ((s + e) / 2) e _ _ hmid1 hmid2 hls hle hrs hre
        hlinv.self hrinv.self

/-- The distinct-count of a node's slice equals the length of its ranking. -/
theorem frequencySorted_length_eq (arr : List Int) (t : Node) (inv : NodeInv arr t) :
    t.frequencySorted.length = (sliceRange arr t.start t.endIdx).dedup.length := by
  obtain ⟨-, hMem, hNodup, -, hPerm, -⟩ := inv
  have hkeys : (keysOf t.frequencyMap).Perm (sliceRange arr t.start t.endIdx).dedup := by
    rw [List.perm_ext_iff_of_nodup hNodup (List.nodup_dedup _)]
    intro z
    rw [hMem z, List.mem_dedup]
  rw [hPerm.length_eq, hkeys.length_eq]

/-! ### Validation model for the batch entry point -/

/-- The source's per-query validation predicate: the disjunction of the three
rejection conditions checked (in order) by `frequencyBasedQueries`. -/
def invalidQuery (arr : List Int) : Int × Int × Int → Prop
  | (left, right, k) =>
    left < 0 ∨ right ≥ (arr.length : Int) ∨ left > right ∨ k ≤ 0 ∨
      k > ((sliceRange arr left.toNat right.toNat).dedup.length : Int)

instance invalidQueryDecidable (arr : List Int) (q : Int × Int × Int) :
    Decidable (invalidQuery arr q) := by
  obtain ⟨left, right, k⟩ := q
  simp only [invalidQuery]
  infer_instance

/-- The error the source throws for an invalid query, respecting the order in
which the three checks appear in the loop body. -/
def firstErrorFor (arr : List Int) : Int × Int × Int → QueryError
  | (left, right, k) =>
    if left < 0 ∨ right ≥ (arr.length : Int) ∨ left > right then .invalidRange left right
    else if k ≤ 0 then .invalidRank k
    else .rankExceedsDistinct k (sliceRange arr left.toNat right.toNat).dedup.length left right

theorem processQueries_first_invalid (arr : List Int) (root : Node) (q : Int × Int × Int)
    (post : List (Int × Int × Int)) :
    ∀ pre : List (Int × Int × Int), (∀ p ∈ pre, ¬ invalidQuery arr p) →
      invalidQuery arr q →
      processQueries arr root (pre ++ q :: post) = .error (firstErrorFor arr q) := by
  intro pre
  induction pre with
  | nil =>
    intro _ hq
    obtain ⟨left, right, k⟩ := q
    simp only [invalidQuery] at hq
    simp only [List.nil_append, processQueries, firstErrorFor]
    by_cases h1 : left < 0 ∨ right ≥ (arr.length : Int) ∨ left > right
    · rw [if_pos h1, if_pos h1]
    · rw [if_neg h1, if_neg h1]
      by_cases h2 : k ≤ 0
      · rw [if_pos h2, if_pos h2]
      · rw [if_neg h2, if_neg h2]
        have h3 : k > ((sliceRange arr left.toNat right.toNat).dedup.length : Int) := by
          rcases hq with h | h | h | h | h
          · exact absurd (Or.inl h) h1
          · exact absurd (Or.inr (Or.inl h)) h1
          · exact absurd (Or.inr (Or.inr h)) h1
          · exact absurd h h2
          · exact h
        rw [if_pos h3]
  | cons p pre ih =>
    intro hpre hq
    obtain ⟨left, right, k⟩ := p
    have hp := hpre _ (List.mem_cons_self _ _)
    simp only [invalidQuery] at hp
    push_neg at hp
    obtain ⟨hp1, hp2, hp3, hp4, hp5⟩ := hp
    simp only [List.cons_append, processQueries, List.append_eq]
    rw [if_neg (by omega), if_neg (by omega), if_neg (by omega),
      ih (fun p hmem => hpre p (List.mem_cons_of_mem _ hmem)) hq]

theorem processQueries_ne_emptyInput (arr : List Int) (root : Node) :
    ∀ qs : List (Int × Int × Int),
      processQueries arr root qs ≠ .error .emptyInput := by
  intro qs
  induction qs with
  | nil => simp [processQueries]
  | cons q rest ih =>
    obtain ⟨left, right, k⟩ := q
    simp only [processQueries]
    split
    · simp
    · split
      · simp
      · split
        · simp
        · split
          · rename_i err heq
            rw [heq] at ih
            intro hc
            exact ih (by rw [← hc])
          · simp

/-! ### Claim theorems -/

/-- C9: every node of the segment tree built over a non-empty array has a
frequency table that maps exactly the distinct values of its slice
`arr[start..end]` to their occurrence counts there, counts summing to the
slice length, and a ranking that lists exactly those values sorted by
descending count with ascending value on ties. -/
theorem buildSegmentTree_nodes_satisfy_inv (arr : List Int) (h : arr ≠ []) :
    AllNodes (NodeInv arr) (buildSegmentTree arr 0 (arr.length - 1)) := by
  have hpos : 0 < arr.length := List.length_pos.2 h
  unfold buildSegmentTree
  exact (buildGo_spec arr (arr.length - 1 - 0) 0 (arr.length - 1)
    (by omega) (by omega) (by omega)).2.2

theorem buildSegmentTree_nodes_satisfy_inv_witness :
    (([5, 7, 5] : List Int) ≠ []) ∧
      AllNodes (NodeInv [5, 7, 5])
        (buildSegmentTree [5, 7, 5] 0 (([5, 7, 5] : List Int).length - 1)) :=
  ⟨by decide, buildSegmentTree_nodes_satisfy_inv [5, 7, 5] (by decide)⟩

/-- C5: for any non-empty array, a full-range query whose rank `k` exceeds
the number of distinct elements of the array makes the core query operation
`queryRange` return the sentinel record `(-1, 0)`; being a total function it
raises nothing.  (The batch wrapper's validator, by contrast, throws
`rankExceedsDistinct` for such a `k` before `queryRange` runs.) -/
theorem queryRange_full_range_rank_overflow (arr : List Int) (k : Nat) (h : arr ≠ [])
    (hk : arr.dedup.length < k) :
    queryRange (buildSegmentTree arr 0 (arr.length - 1)) 0 (arr.length - 1) k = (-1, 0) := by
  have hpos : 0 < arr.length := List.length_pos.2 h
  unfold buildSegmentTree
  obtain ⟨hst, hed, hinv⟩ := buildGo_spec arr (arr.length - 1 - 0) 0 (arr.length - 1)
    (by omega) (by omega) (by omega)
  have hlen := frequencySorted_length_eq arr _ hinv.self
  rw [hst, hed, sliceRange_full arr h] at hlen
  generalize hg : buildGo arr (arr.length - 1 - 0) 0 (arr.length - 1) = t at hst hed hlen ⊢
  cases t with
  | leaf s fm fs =>
    rw [Node.start_leaf] at hst
    rw [Node.endIdx_leaf] at hed
    rw [Node.frequencySorted_leaf] at hlen
    simp only [queryRange]
    rw [if_pos ⟨by omega, by omega⟩, if_pos (by omega)]
  | node s e fm fs l r =>
    rw [Node.start_node] at hst
    rw [Node.endIdx_node] at hed
    rw [Node.frequencySorted_node] at hlen
    simp only [queryRange]
    rw [if_pos ⟨by omega, by omega⟩, if_pos (by omega)]

theorem queryRange_full_range_rank_overflow_witness :
    (([42, 42, 42, 42, 42] : List Int) ≠ []) ∧
      ([42, 42, 42, 42, 42] : List Int).dedup.length < 2 ∧
      queryRange
          (buildSegmentTree [42, 42, 42, 42, 42] 0
            (([42, 42, 42, 42, 42] : List Int).length - 1))
          0 (([42, 42, 42, 42, 42] : List Int).length - 1) 2 = (-1, 0) :=
  ⟨by decide, by decide,
    queryRange_full_range_rank_overflow [42, 42, 42, 42, 42] 2 (by decide) (by decide)⟩

/-- C7: the batch entry point reports `emptyInput` exactly when the input
array is empty, for every query list; the check precedes tree construction
and query processing. -/
theorem frequencyBasedQueries_emptyInput_iff (arr : List Int)
    (queries : List (Int × Int × Int)) :
    frequencyBasedQueries arr queries = .error .emptyInput ↔ arr = [] := by
  unfold frequencyBasedQueries
  by_cases h : arr.length = 0
  · rw [if_pos h]
    simp [List.length_eq_zero.1 h]
  · rw [if_neg h]
    constructor
    · intro hc
      exact absurd hc (processQueries_ne_emptyInput arr _ queries)
    · intro hc
      rw [hc] at h
      exact absurd rfl h

/-- C6: with a non-empty array, the batch raises the error of the first
invalid query in list order — the range check first, then the rank check,
then the distinct-count check — and returns no partial result list. -/
theorem frequencyBasedQueries_halts_on_first_invalid (arr : List Int)
    (pre post : List (Int × Int × Int)) (q : Int × Int × Int) (h : arr ≠ [])
    (hpre : ∀ p ∈ pre, ¬ invalidQuery arr p) (hq : invalidQuery arr q) :
    frequencyBasedQueries arr (pre ++ q :: post) = .error (firstErrorFor arr q) := by
  unfold frequencyBasedQueries
  rw [if_neg (fun hlen => h (List.length_eq_zero.1 hlen))]
  exact processQueries_first_invalid arr _ q post pre hpre hq

theorem frequencyBasedQueries_halts_on_first_invalid_witness :
    (([7, 8] : List Int) ≠ []) ∧
      (∀ p ∈ ([((0 : Int), (1 : Int), (1 : Int))] : List (Int × Int × Int)),
        ¬ invalidQuery [7, 8] p) ∧
      invalidQuery [7, 8] ((0 : Int), (1 : Int), (5 : Int)) ∧
      frequencyBasedQueries [7, 8] ([(0, 1, 1)] ++ (0, 1, 5) :: []) =
        .error (firstErrorFor [7, 8] (0, 1, 5)) :=
  ⟨by decide, by decide, by decide,
    frequencyBasedQueries_halts_on_first_invalid [7, 8] [(0, 1, 1)] [] (0, 1, 5)
      (by decide) (by decide) (by decide)⟩

/-- C1 (refutation): on the example array of the source's own documentation,
the segment-tree implementation and the direct-counting reference disagree on
the validated query (2, 5, 2): the tree answers 3, the reference answers 1. -/
theorem tree_vs_reference_diverge :
    frequencyBasedQueries [1, 2, 3, 2, 1, 3, 1, 4, 2] [(2, 5, 2)] = .ok [3] ∧
      optimizedFrequencyBasedQueries [1, 2, 3, 2, 1, 3, 1, 4, 2] [(2, 5, 2)] = .ok [1] :=
  ⟨rfl, rfl⟩

/-- C2 (refutation): the straddling-overlap branch filters child
contributions by element VALUE against the index bounds, not by index
position: on arr = [10, 20] with the validated query (0, 0, 1), the index
range holds exactly the value 10, but 10 is outside [0, 0] as a value, so
the contribution is dropped and the sentinel is returned; the
direct-counting reference returns 10. -/
theorem value_filter_drops_index_range_element :
    frequencyBasedQueries [10, 20] [(0, 0, 1)] = .ok [-1] ∧
      optimizedFrequencyBasedQueries [10, 20] [(0, 0, 1)] = .ok [10] :=
  ⟨rfl, rfl⟩

/-- C3 (refutation): the validated query (1, 1, 1) on [10, 20] (k = 1, one
distinct element in range) makes frequencyBasedQueries return the sentinel
-1, which is not an element of arr[1..1] = [20]. -/
theorem validated_query_returns_sentinel :
    frequencyBasedQueries [10, 20] [(1, 1, 1)] = .ok [-1] ∧
      (-1 : Int) ∉ sliceRange [10, 20] 1 1 :=
  ⟨rfl, by decide⟩

/-- C4 (partial refutation): on arr = [1,2,3,2,1,3,1,4,2], the query
(0, 8, 1) does return 1, but (2, 5, 2) returns 3, not the claimed 1. -/
theorem readme_example_queries :
    frequencyBasedQueries [1, 2, 3, 2, 1, 3, 1, 4, 2] [(0, 8, 1), (2, 5, 2)] =
      .ok [1, 3] :=
  rfl

/-- C8 (refutation): in arr[2..5] = [3, 2, 1, 3] the distinct elements 1 and
2 are tied at count 1, yet rank 1 returns the larger value 2 and the smaller
value 1 is returned at no rank (ranks 1..3 give 2, 3, sentinel). -/
theorem tie_break_violated_on_straddling_query :
    frequencyBasedQueries [1, 2, 3, 2, 1, 3, 1, 4, 2]
        [(2, 5, 1), (2, 5, 2), (2, 5, 3)] = .ok [2, 3, -1] ∧
      (sliceRange [1, 2, 3, 2, 1, 3, 1, 4, 2] 2 5).count 1 =
        (sliceRange [1, 2, 3, 2, 1, 3, 1, 4, 2] 2 5).count 2 :=
  ⟨rfl, rfl⟩

/-- C10: the sentinel is the concrete integer -1, inside the element domain:
on arr = [-1, -1] the validated query (0, 1, 1) returns -1 denoting a
genuine element of the range, indistinguishable from the no-such-rank
result. -/
theorem sentinel_collides_with_element_domain :
    frequencyBasedQueries [-1, -1] [(0, 1, 1)] = .ok [-1] ∧
      (-1 : Int) ∈ sliceRange [-1, -1] 0 1 :=
  ⟨rfl, by decide⟩
